import Mathlib

/-!
Verification of the GraphRAG knowledge-graph construction and retrieval core.

This file gives a shallow embedding, in Lean 4, of the algorithmic parts of the
repository (entity normalization, entity grouping and canonical-form selection,
relationship deduplication, the Neo4j entity upsert, the chunking strategies,
query orchestration, and system initialization), translated directly from the
Python source files src/graph_builder.py, src/document_processor.py and
src/graphrag_core.py, together with theorems settling the frozen claims about
those parts.  Machine-level details that the claims do not touch (the Neo4j
driver, the NER and embedding models, async scheduling) are modelled as
explicit data passed to the embedded functions.

Python strings are modelled as Lean `String`s manipulated through their
character lists (a Python `str` is a sequence of code points, which matches
`String.data`); the helpers prefixed `py` below embed the exact Python string
primitives the source uses (`str.strip`, `str.lower`, `str.endswith`,
slicing, `str.replace`, `str.split`).
-/

/-! ### Python string primitives -/

/-- Python `str.strip()` on a character list: whitespace removed from both
ends. -/
def pyStripChars (l : List Char) : List Char :=
  ((l.dropWhile Char.isWhitespace).reverse.dropWhile Char.isWhitespace).reverse

/-- Python `str.strip()`. -/
def pyStrip (s : String) : String :=
  String.mk (pyStripChars s.data)

/-- Python `str.lower()` (the inputs of interest are ASCII, where
`Char.toLower` agrees with Python). -/
def pyLower (s : String) : String :=
  String.mk (s.data.map Char.toLower)

/-- Python `s.endswith(sfx)`: the last `len(sfx)` characters equal `sfx`. -/
def pyEndsWith (s sfx : String) : Bool :=
  decide (s.data.drop (s.data.length - sfx.data.length) = sfx.data)

/-- Python slicing `s[:n]`. -/
def pyTake (s : String) (n : Nat) : String :=
  String.mk (s.data.take n)

/-- Removal of every non-overlapping occurrence of the non-empty pattern
`pat`, scanning left to right: Python `s.replace(pat, "")`. -/
def pyRemoveAll (pat : List Char) (l : List Char) : List Char :=
  match l with
  | [] => []
  | c :: rest =>
    if pat.length ≠ 0 ∧ (c :: rest).take pat.length = pat then
      pyRemoveAll pat (rest.drop (pat.length - 1))
    else
      c :: pyRemoveAll pat rest
termination_by l.length
decreasing_by
  · simp only [List.length_drop, List.length_cons]
    omega
  · simp

/-- Python `s.replace(pat, "")`. -/
def pyReplaceDel (s pat : String) : String :=
  String.mk (pyRemoveAll pat.data s.data)

/-! ### Entity normalization (src/graph_builder.py, _normalize_* methods) -/

/-- The fixed legal-suffix list of `_normalize_organization`
(src/graph_builder.py lines 204-216), in source order. -/
def orgSuffixes : List String :=
  ["Inc.", "Corp.", "Corporation", "Ltd.", "LLC", "Co.", "Company",
   "GmbH", "AG", "S.A.", "Pvt. Ltd."]

/-- Embedding of `_normalize_organization` (src/graph_builder.py lines
200-220).  The source executes `name = name[: len(suffix)].strip()` when
`name` ends with `suffix`, i.e. it KEEPS the first `len(suffix)` characters of
the name; it does not drop the trailing suffix.  The embedding reproduces that
literally. -/
def pyNormalizeOrganization (orgName : String) : String :=
  let name := pyStrip orgName
  let name := orgSuffixes.foldl
    (fun n sfx => if pyEndsWith n sfx then pyStrip (pyTake n sfx.data.length) else n)
    name
  pyLower name

/-- The honorific list of `_normalize_person` (src/graph_builder.py line 226). -/
def personTitles : List String :=
  ["Dr.", "Mr.", "Ms.", "Mrs.", "Prof.", "CEO", "CTO", "CFO"]

/-- Embedding of `_normalize_person` (src/graph_builder.py lines 222-229):
each title is removed from anywhere in the name (`str.replace`), the result is
stripped after every removal, and finally lower-cased. -/
def pyNormalizePerson (personName : String) : String :=
  let name := pyStrip personName
  let name := personTitles.foldl (fun n t => pyStrip (pyReplaceDel n t)) name
  pyLower name

/-- Embedding of `_normalize_location` (src/graph_builder.py lines 231-233). -/
def pyNormalizeLocation (location : String) : String :=
  pyLower (pyStrip location)

/-- Left-to-right scan for the first match of the regular expression `[\d,]_`
used by `_normalize_money` (src/graph_builder.py line 238): a digit-or-comma
character immediately followed by an underscore. -/
def moneyScan : List Char → Option String
  | c1 :: c2 :: rest =>
    if (c1.isDigit || c1 = ',') && c2 = '_' then some (String.mk [c1, c2])
    else moneyScan (c2 :: rest)
  | _ => none

/-- Embedding of `_normalize_money` (src/graph_builder.py lines 235-241):
if the regex matches, the first match with commas removed is returned,
otherwise the trimmed lower-cased input. -/
def pyNormalizeMoney (money : String) : String :=
  match moneyScan money.data with
  | some s => String.mk (s.data.filter (fun c => c ≠ ','))
  | none => pyLower (pyStrip money)

/-- Embedding of `_default_normalize` (src/graph_builder.py lines 243-245). -/
def pyDefaultNormalize (text : String) : String :=
  pyLower (pyStrip text)

/-- The `normalization_rules` dispatch table of `AdvancedGraphBuilder.__init__`
(src/graph_builder.py lines 69-74): a type-specific normalizer per entity
label, defaulting to `_default_normalize`. -/
def normalizeFor (label : String) (text : String) : String :=
  if label = "ORG" then pyNormalizeOrganization text
  else if label = "PERSON" then pyNormalizePerson text
  else if label = "GPE" then pyNormalizeLocation text
  else if label = "MONEY" then pyNormalizeMoney text
  else pyDefaultNormalize text

/-- C1: the claim states that organization normalization strips a trailing
legal suffix, trims and lower-cases, so that "Acme Inc." gives "acme" and
"Microsoft Corporation" gives "microsoft".  The code instead keeps the first
`len(suffix)` characters of the name (`name[: len(suffix)]`, a slip for
`name[: -len(suffix)]`, contradicting the source comment "Remove common
suffixes").  At "Acme Inc." the two coincide by accident of lengths, but
"Microsoft Corporation" evaluates to "microsoft c", not "microsoft". -/
theorem c1_normalize_org_eval :
    pyNormalizeOrganization "Microsoft Corporation" = "microsoft c" ∧
    pyNormalizeOrganization "Acme Inc." = "acme" := by
  constructor <;> rfl

/-! ### Entity mentions, grouping and canonical selection
(src/graph_builder.py, `_normalize_entities`, lines 163-198) -/

/-- The fields of `EntityMention` used by normalization and storage
(src/graph_builder.py lines 14-25); the character span and confidence play no
role in the claims' code paths. -/
structure Mention where
  text : String
  label : String
  chunkId : String
deriving DecidableEq, Repr

/-- The grouping key `f"{entity.label}:{normalized_form}"`
(src/graph_builder.py line 178). -/
def mentionKey (m : Mention) : String :=
  m.label ++ ":" ++ normalizeFor m.label m.text

/-- One step of `normalized_groups[key].append(entity)` on an insertion-ordered
association list: Python dicts preserve the insertion order of keys, and each
group's mention list grows at the end. -/
def addToGroups (gs : List (String × List Mention)) (k : String) (m : Mention) :
    List (String × List Mention) :=
  match gs with
  | [] => [(k, [m])]
  | (k', ms) :: rest =>
    if k' = k then (k', ms ++ [m]) :: rest else (k', ms) :: addToGroups rest k m

/-- The grouping loop of `_normalize_entities` (src/graph_builder.py lines
169-179): mentions are processed in input order and appended to the group of
their key. -/
def pyGroups (mentions : List Mention) : List (String × List Mention) :=
  mentions.foldl (fun gs m => addToGroups gs (mentionKey m) m) []

/-- The distinct elements of a list in order of first occurrence: the key
order of `collections.Counter` (a dict subclass) built from the list. -/
def firstOccs : List String → List String
  | [] => []
  | t :: ts => t :: (firstOccs ts).filter (fun x => x ≠ t)

/-- Left fold selecting the element with the strictly greatest score, earlier
elements winning ties: applied to the distinct texts in first-occurrence order
this is exactly `Counter(texts).most_common(1)[0][0]`, whose documented
tie-break is first-encounter order. -/
def argmaxScan (f : String → Nat) (c : String) (cs : List String) : String :=
  cs.foldl (fun b t => if f b < f t then t else b) c

/-- Embedding of `Counter(mention.text for mention in mentions).most_common(1)[0][0]`
(src/graph_builder.py lines 186-187).  On an empty list `most_common(1)[0]`
would raise; groups are never empty, so the `""` default is unreachable. -/
def pyMostCommon (texts : List String) : String :=
  match firstOccs texts with
  | [] => ""
  | c :: cs => argmaxScan (fun t => texts.count t) c cs

/-- The canonical-entity record built per group by `_normalize_entities`
(src/graph_builder.py lines 189-195); the `mentions` list itself is kept
around by the source only to derive surface forms and chunk links. -/
structure CanonEntity where
  canonical_name : String
  normalized_name : String
  entity_type : String
  mention_count : Nat
deriving DecidableEq, Repr

/-- Embedding of the canonical-selection loop of `_normalize_entities`
(src/graph_builder.py lines 181-195): for each group (all groups have
`len(mentions) >= 1`; the empty case mirrors that guard), the canonical
surface form is the most common raw text, the normalized name and entity type
come from the group's first mention. -/
def pyNormalizeEntities (mentions : List Mention) : List CanonEntity :=
  (pyGroups mentions).filterMap fun g =>
    match g.2 with
    | [] => none
    | m0 :: rest =>
      some { canonical_name := pyMostCommon ((m0 :: rest).map Mention.text)
             normalized_name := normalizeFor m0.label m0.text
             entity_type := m0.label
             mention_count := (m0 :: rest).length }

/-! ### The Neo4j entity upsert (src/graph_builder.py, `_store_enhanced_graph`,
lines 422-496)

The persistent `Entity` nodes are modelled as an association list from the
Cypher MERGE key `(canonical_name, type)` to the node's `mention_count`
property (the only property the claims are about).  `MERGE ... SET` is
match-or-create followed by overwriting the property. -/

/-- The stored entity nodes: MERGE key to `mention_count`. -/
abbrev EntityStore := List ((String × String) × Nat)

/-- `MERGE (e:Entity {canonical_name: ..., type: ...}) SET e.mention_count = ...`:
if a node with the key exists its property is overwritten, otherwise a node is
created. -/
def upsertEntity (s : EntityStore) (k : String × String) (n : Nat) : EntityStore :=
  match s with
  | [] => [(k, n)]
  | (k', v) :: rest =>
    if k' = k then (k, n) :: rest else (k', v) :: upsertEntity rest k n

/-- The entity-storing loop of `_store_enhanced_graph` (src/graph_builder.py
lines 424-462): entities whose canonical name is empty or "Unknown" are
skipped; every other entity is upserted with `mention_count` set to the count
computed from THIS ingestion's mentions alone. -/
def storeEntities (s : EntityStore) (es : List CanonEntity) : EntityStore :=
  es.foldl
    (fun st e =>
      if e.canonical_name = "" ∨ e.canonical_name = "Unknown" then st
      else upsertEntity st (e.canonical_name, e.entity_type) e.mention_count)
    s

/-- The entity phase of ingesting one document: normalize this document's
mentions and upsert the resulting canonical entities
(src/graph_builder.py, `build_enhanced_graph` steps 2 and 4). -/
def ingestDocEntities (s : EntityStore) (mentions : List Mention) : EntityStore :=
  storeEntities s (pyNormalizeEntities mentions)

/-- C2 counterexample: two documents (distinct hashes are irrelevant to the
entity store, whose key is `(canonical_name, type)`) each containing exactly
one mention "Acme Inc."/ORG.  The claim says the stored entity ends with
`mention_count = 2`; the code's `SET e.mention_count = $mention_count`
overwrites the property with the second document's own count, leaving 1. -/
theorem c2_counterexample :
    List.lookup ("Acme Inc.", "ORG")
        (ingestDocEntities
          (ingestDocEntities [] [{ text := "Acme Inc.", label := "ORG", chunkId := "chunk_0" }])
          [{ text := "Acme Inc.", label := "ORG", chunkId := "chunk_0" }]) = some 1 ∧
    List.lookup ("Acme Inc.", "ORG")
        (ingestDocEntities
          (ingestDocEntities [] [{ text := "Acme Inc.", label := "ORG", chunkId := "chunk_0" }])
          [{ text := "Acme Inc.", label := "ORG", chunkId := "chunk_0" }]) ≠ some 2 := by
  constructor <;> decide

/-- Looking up the key just upserted returns exactly the value written: the
`MERGE ... SET` overwrites whatever was stored before. -/
theorem lookup_upsertEntity_self (s : EntityStore) (k : String × String) (n : Nat) :
    List.lookup k (upsertEntity s k n) = some n := by
  induction s with
  | nil => simp [upsertEntity, List.lookup]
  | cons hd tl ih =>
    obtain ⟨k', v⟩ := hd
    by_cases h : k' = k
    · simp [upsertEntity, h, List.lookup]
    · have hbeq : (k == k') = false := beq_eq_false_iff_ne.mpr fun e => h e.symm
      simp [upsertEntity, if_neg h, List.lookup, hbeq, ih]

/-- C2 (amended): what the code actually guarantees.  For ANY prior store
contents, ingesting a document with a single valid mention leaves the stored
entity's `mention_count` equal to that one document's own count, 1: each
ingestion overwrites the persisted count with the count computed from its own
mentions alone instead of accumulating increments across documents. -/
theorem c2_store_overwrites (s : EntityStore) (t lab cid : String)
    (h1 : t ≠ "") (h2 : t ≠ "Unknown") :
    List.lookup (t, lab) (ingestDocEntities s [{ text := t, label := lab, chunkId := cid }]) =
      some 1 := by
  have hgroups : pyNormalizeEntities [{ text := t, label := lab, chunkId := cid }] =
      [{ canonical_name := t, normalized_name := normalizeFor lab t,
         entity_type := lab, mention_count := 1 }] := by
    simp [pyNormalizeEntities, pyGroups, addToGroups, pyMostCommon, firstOccs, argmaxScan,
      List.filterMap]
  rw [ingestDocEntities, hgroups]
  simp only [storeEntities, List.foldl]
  rw [if_neg (by simp [h1, h2])]
  exact lookup_upsertEntity_self s (t, lab) 1

/-- Witness for `c2_store_overwrites`: a store that already records count 5
for the entity still holds count 1 after the next single-mention ingestion. -/
theorem c2_store_overwrites_witness :
    ("Acme Inc." : String) ≠ "" ∧ ("Acme Inc." : String) ≠ "Unknown" ∧
    List.lookup ("Acme Inc.", "ORG")
      (ingestDocEntities [(("Acme Inc.", "ORG"), 5)]
        [{ text := "Acme Inc.", label := "ORG", chunkId := "chunk_0" }]) = some 1 :=
  ⟨by decide, by decide,
    c2_store_overwrites [(("Acme Inc.", "ORG"), 5)] "Acme Inc." "ORG" "chunk_0"
      (by decide) (by decide)⟩

/-! ### Query orchestration (src/graphrag_core.py, `query`, `_vector_search`,
`_graph_search`, `_generate_answer`, lines 617-757)

The external Weaviate and Neo4j calls are modelled as `Except`-valued data in
`QueryDeps`: an `Except.error` value is a raised exception at that call site.
`_vector_search` and `_graph_search` catch their own exceptions and return
`[]`; `query` catches everything else. -/

/-- The fields of a vector-search hit that answer composition reads
(`item.get("content")`, `item.get("source")`). -/
structure VectorChunk where
  content : String
  source : String
deriving DecidableEq, Repr

/-- A `_graph_search` record; answer composition only reads `item["entity"]`
(`None` models a null `e.name`). -/
structure GraphEntity where
  entity : Option String
deriving DecidableEq, Repr

/-- The no-information answer returned by `_generate_answer` when both result
lists are empty (src/graphrag_core.py line 721). -/
def noInfoMsg : String :=
  "I couldn" ++ String.mk [Char.ofNat 39] ++
    "t find any relevant information to answer your question. Please try rephrasing or ask about topics covered in the uploaded documents."

/-- `content[:300] + "..." if len(content) > 300 else content`
(src/graphrag_core.py line 731). -/
def pySnippet (c : String) : String :=
  if 300 < c.data.length then pyTake c 300 ++ "..." else c

/-- `[item["entity"] for item in graph_results if item.get("entity")]`
(src/graphrag_core.py lines 736-738): a missing, null or empty (falsy) entity
name is dropped. -/
def entityNames (gresults : List GraphEntity) : List String :=
  gresults.filterMap fun g =>
    match g.entity with
    | some s => if s = "" then none else some s
    | none => none

/-- Embedding of `_generate_answer` (src/graphrag_core.py lines 715-757).
With both result lists empty it returns `noInfoMsg`; otherwise it builds the
template answer from up to 3 truncated chunks and up to 5 entity names with
the trailing summary line.  Its body is total, so the source's own
`except` fallback is unreachable in the embedding. -/
def generateAnswer (vresults : List VectorChunk) (gresults : List GraphEntity) : String :=
  if vresults = [] ∧ gresults = [] then noInfoMsg
  else
    let vparts : List String :=
      if vresults = [] then []
      else "Relevant information from documents:" ::
        ((vresults.take 3).enum.map fun p =>
          toString (p.1 + 1) ++ ". From " ++ p.2.source ++ ": " ++ pySnippet p.2.content)
    let gparts : List String :=
      if gresults = [] then []
      else
        let es := entityNames gresults
        if es = [] then []
        else ["\nRelated entities mentioned in documents: " ++
              String.intercalate ", " (es.take 5)]
    let ans := "Based on the available information:\n\n" ++
      String.intercalate "\n" (vparts ++ gparts) ++ "\n\n" ++
      "This response is based on " ++ toString vresults.length ++ " document segments"
    let ans := if gresults ≠ [] then
      ans ++ " and " ++ toString gresults.length ++ " related entities" else ans
    ans ++ " from the knowledge base."

/-- The outcomes of the external calls `query` depends on: whether the system
was already initialized, the outcome of `initialize()` if not, and the raw
outcomes of the Weaviate and Neo4j calls inside `_vector_search` and
`_graph_search`. -/
structure QueryDeps where
  initialized : Bool
  initOutcome : Except String Unit
  vectorRaw : Except String (List VectorChunk)
  graphRaw : Except String (List GraphEntity)
deriving Repr

/-- Embedding of `_vector_search` (src/graphrag_core.py lines 662-682): its
`except` clause converts any exception into `[]`. -/
def pyVectorSearch (d : QueryDeps) : List VectorChunk :=
  match d.vectorRaw with
  | Except.ok l => l
  | Except.error _ => []

/-- Embedding of `_graph_search` (src/graphrag_core.py lines 684-713): its
`except` clause converts any exception into `[]`. -/
def pyGraphSearch (d : QueryDeps) : List GraphEntity :=
  match d.graphRaw with
  | Except.ok l => l
  | Except.error _ => []

/-- The response dictionary of `query` (src/graphrag_core.py lines 636-660):
`sources` is flattened into `vector_matches`, `graph_entities`, `top_chunks`
and the error branch's `sources["error"]` into `errorMsg`. -/
structure QueryResponse where
  question : String
  answer : String
  vector_matches : Nat
  graph_entities : Nat
  top_chunks : List (String × String)
  status : String
  errorMsg : Option String
deriving DecidableEq, Repr

/-- The `try` block of `query` (src/graphrag_core.py lines 619-651):
initialization if needed (its failure is a raised exception), both searches,
answer composition, and the success response. -/
def queryBody (question : String) (d : QueryDeps) : Except String QueryResponse := do
  if d.initialized = false then
    match d.initOutcome with
    | Except.error e => throw e
    | Except.ok _ => pure ()
  let v := pyVectorSearch d
  let g := pyGraphSearch d
  let ans := generateAnswer v g
  pure { question := question, answer := ans,
         vector_matches := v.length, graph_entities := g.length,
         top_chunks := (v.take 3).map (fun i => (pyTake i.content 100 ++ "...", i.source)),
         status := "success", errorMsg := none }

/-- Embedding of `query` (src/graphrag_core.py lines 617-660): the `except`
clause converts any raised exception into the structured error response that
repeats the question. -/
def pyQuery (question : String) (d : QueryDeps) : QueryResponse :=
  match queryBody question d with
  | Except.ok r => r
  | Except.error e =>
    { question := question,
      answer := "Sorry, I encountered an error processing your question: " ++ e,
      vector_matches := 0, graph_entities := 0, top_chunks := [],
      status := "error", errorMsg := some e }

/-- C5: `query` always returns a structured response (the embedding is a total
function into `QueryResponse`, never a propagated exception), the response
carries the original question unchanged, and any internal failure surfaces as
status "error" with a human-readable message naming the failure. -/
theorem c5_query_never_raises (question : String) (d : QueryDeps) :
    (pyQuery question d).question = question ∧
    ((pyQuery question d).status = "success" ∨
      ((pyQuery question d).status = "error" ∧
        ∃ msg, (pyQuery question d).answer =
          "Sorry, I encountered an error processing your question: " ++ msg)) := by
  rcases d with ⟨ini, io, vr, gr⟩
  cases ini <;> cases io <;>
    simp [pyQuery, queryBody, pyVectorSearch, pyGraphSearch, pure, Except.pure, bind,
      Except.bind]

/-- C8: when both the vector search and the graph search come back empty (as
with empty stores), `query` returns the explicit no-information answer with
status "success", the question preserved, zero source counts, and no
exception. -/
theorem c8_empty_results_no_info (question : String) (d : QueryDeps)
    (hv : pyVectorSearch d = []) (hg : pyGraphSearch d = [])
    (hinit : d.initialized = true ∨ d.initOutcome = Except.ok ()) :
    pyQuery question d =
      { question := question, answer := noInfoMsg, vector_matches := 0,
        graph_entities := 0, top_chunks := [], status := "success",
        errorMsg := none } := by
  have hga : generateAnswer (pyVectorSearch d) (pyGraphSearch d) = noInfoMsg := by
    rw [hv, hg]; simp [generateAnswer]
  rcases d with ⟨ini, io, vr, gr⟩
  rcases hinit with h | h
  · subst h
    simp_all [pyQuery, queryBody, pure, Except.pure, bind, Except.bind]
  · cases ini <;>
      simp_all [pyQuery, queryBody, pure, Except.pure, bind, Except.bind]

/-- Witness for `c8_empty_results_no_info` at an initialized system over empty
stores. -/
theorem c8_empty_results_no_info_witness :
    pyVectorSearch ⟨true, Except.ok (), Except.ok [], Except.ok []⟩ = [] ∧
    pyGraphSearch ⟨true, Except.ok (), Except.ok [], Except.ok []⟩ = [] ∧
    ((⟨true, Except.ok (), Except.ok [], Except.ok []⟩ : QueryDeps).initialized = true ∨
      (⟨true, Except.ok (), Except.ok [], Except.ok []⟩ : QueryDeps).initOutcome =
        Except.ok ()) ∧
    pyQuery "What is Acme?" ⟨true, Except.ok (), Except.ok [], Except.ok []⟩ =
      { question := "What is Acme?", answer := noInfoMsg, vector_matches := 0,
        graph_entities := 0, top_chunks := [], status := "success",
        errorMsg := none } :=
  ⟨rfl, rfl, Or.inl rfl,
    c8_empty_results_no_info "What is Acme?" ⟨true, Except.ok (), Except.ok [], Except.ok []⟩
      rfl rfl (Or.inl rfl)⟩

/-! ### System initialization (src/graphrag_core.py, `initialize` and the
`_init_*` methods, lines 60-204)

Each external service's availability is modelled as data: per-attempt
connection outcomes for the retried Neo4j and Weaviate connections, and load
outcomes for the spaCy NER model and the embedding model. -/

/-- The outcomes of the external calls made during startup. -/
structure InitDeps where
  nlpLoadOk : Bool
  neo4jAttempts : List Bool
  weaviateAttempts : List Bool
  embedLoadOk : Bool
deriving DecidableEq, Repr

/-- The retry loop of `_init_neo4j` / `_init_weaviate` (src/graphrag_core.py
lines 93-146): up to `maxRetries` attempts; the loop returns as soon as one
attempt succeeds and raises after the last failure.  Connection is
established iff some attempt among the first `maxRetries` succeeds. -/
def retrySucceeds (attempts : List Bool) (maxRetries : Nat) : Bool :=
  (List.range maxRetries).any fun i => attempts.getD i false

/-- The system state `initialize` leaves behind: whether the NER model fell
back to the blank pipeline (`spacy.blank("en")`), and the `self.initialized`
flag. -/
structure SysState where
  nlpIsBlank : Bool
  initialized : Bool
deriving DecidableEq, Repr

/-- Embedding of `initialize` on a fresh system (src/graphrag_core.py lines
70-91).  `_init_nlp` (lines 192-204) catches the `OSError` of a missing spaCy
model and falls back to `spacy.blank("en")` — it never raises.  `_init_neo4j`,
`_init_weaviate` raise after 5 failed attempts, `_init_embeddings` raises on a
failed load; any raise aborts `initialize` before `self.initialized = True`
is reached. -/
def pyInitialize (d : InitDeps) : Except String SysState :=
  let nlpIsBlank := !d.nlpLoadOk
  if retrySucceeds d.neo4jAttempts 5 = false then
    Except.error "Failed to connect to Neo4j after 5 attempts"
  else if retrySucceeds d.weaviateAttempts 5 = false then
    Except.error "Failed to connect to Weaviate after 5 attempts"
  else if d.embedLoadOk = false then
    Except.error "Failed to load embedding model"
  else
    Except.ok { nlpIsBlank := nlpIsBlank, initialized := true }

/-- C9 counterexample: with the NER model unavailable (`spacy.load` raising
`OSError`) but every other service healthy, `initialize` does NOT fail: it
falls back to the blank spaCy pipeline and still marks the system
initialized, contradicting the claim that an unavailable NER model prevents
the system from reporting itself ready. -/
theorem c9_counterexample :
    pyInitialize { nlpLoadOk := false, neo4jAttempts := [true],
                   weaviateAttempts := [true], embedLoadOk := true } =
      Except.ok { nlpIsBlank := true, initialized := true } := by
  rfl

/-- C9 (amended): failure of the graph store, the vector store (each after
its 5 bounded retries), or the embedding model is fatal — `initialize` raises
and no initialized state is produced.  An unavailable NER model alone is not
fatal: the code falls back to a blank pipeline (see `c9_counterexample`). -/
theorem c9_service_failure_fatal (d : InitDeps)
    (h : retrySucceeds d.neo4jAttempts 5 = false ∨
         retrySucceeds d.weaviateAttempts 5 = false ∨
         d.embedLoadOk = false) :
    ∃ e, pyInitialize d = Except.error e := by
  unfold pyInitialize
  rcases h with h | h | h
  · exact ⟨_, by rw [if_pos h]⟩
  · by_cases hn : retrySucceeds d.neo4jAttempts 5 = false
    · exact ⟨_, by rw [if_pos hn]⟩
    · exact ⟨_, by rw [if_neg hn, if_pos h]⟩
  · by_cases hn : retrySucceeds d.neo4jAttempts 5 = false
    · exact ⟨_, by rw [if_pos hn]⟩
    · by_cases hw : retrySucceeds d.weaviateAttempts 5 = false
      · exact ⟨_, by rw [if_neg hn, if_pos hw]⟩
      · exact ⟨_, by rw [if_neg hn, if_neg hw, if_pos h]⟩

/-- Witness for `c9_service_failure_fatal`: a Neo4j that only comes up at the
sixth attempt is past the bounded 5 retries, so startup fails. -/
theorem c9_service_failure_fatal_witness :
    (retrySucceeds [false, false, false, false, false, true] 5 = false ∨
      retrySucceeds [true] 5 = false ∨ (true : Bool) = false) ∧
    ∃ e, pyInitialize { nlpLoadOk := true,
                        neo4jAttempts := [false, false, false, false, false, true],
                        weaviateAttempts := [true], embedLoadOk := true } =
      Except.error e :=
  ⟨Or.inl (by decide),
    c9_service_failure_fatal
      { nlpLoadOk := true, neo4jAttempts := [false, false, false, false, false, true],
        weaviateAttempts := [true], embedLoadOk := true }
      (Or.inl (by decide))⟩

/-! ### Fixed-size chunking (src/document_processor.py, `_chunk_by_fixed_size`,
lines 461-471)

`content.split()` yields the document's words (non-empty, whitespace-free
tokens); the chunker is embedded at that word-list level, each produced chunk
being the word list whose space-join the source appends.  The word count of a
joined chunk equals the length of its word list. -/

/-- Fuel-indexed window builder: with `fuel ≥ l.length` (one unit per window
suffices, as each window consumes at least one word for `step ≥ 1`) this
produces the windows of `for i in range(0, len(words), step)` with
`chunk = words[i : i + csize]`, in loop order.  The recursion
`(w :: ws) ↦ ws.drop (step - 1)` advances the start by exactly `step` words,
as the Python `range` does. -/
def fixedWindowsGo (csize step : Nat) : Nat → List String → List (List String)
  | _, [] => []
  | 0, _ :: _ => []
  | fuel + 1, w :: ws =>
    (w :: ws).take csize :: fixedWindowsGo csize step fuel (ws.drop (step - 1))

/-- The window sequence of `_chunk_by_fixed_size` before the non-blank
filter. -/
def fixedWindows (csize step : Nat) (ws : List String) : List (List String) :=
  fixedWindowsGo csize step ws.length ws

/-- The guard `if chunk.strip()` (src/document_processor.py line 468): the
space-join of a window strips to non-empty iff some word has a
non-whitespace character. -/
def chunkNonBlank (window : List String) : Bool :=
  window.any fun w => pyStrip w != ""

/-- Embedding of `_chunk_by_fixed_size` on the word list of the content:
windows of `csize` words advancing by `csize - overlap`, blank chunks
dropped. -/
def pyFixedChunks (csize overlap : Nat) (ws : List String) : List (List String) :=
  (fixedWindows csize (csize - overlap) ws).filter chunkNonBlank

/-- Window `n` starts at word `step * n` (fuel-parametric form). -/
theorem fixedWindowsGo_getElem (csize step : Nat) (hstep : 1 ≤ step) :
    ∀ (n f : Nat) (ws : List String), ws.length ≤ f →
      ∀ (h : n < (fixedWindowsGo csize step f ws).length),
      (fixedWindowsGo csize step f ws)[n] = (ws.drop (step * n)).take csize := by
  intro n
  induction n with
  | zero =>
    intro f ws hf h
    match f, ws with
    | _, [] => simp [fixedWindowsGo] at h
    | 0, w :: tl => simp at hf
    | f + 1, w :: tl => simp [fixedWindowsGo]
  | succ n ih =>
    intro f ws hf h
    match f, ws with
    | _, [] => simp [fixedWindowsGo] at h
    | 0, w :: tl => simp at hf
    | f + 1, w :: tl =>
      have hf' : (tl.drop (step - 1)).length ≤ f := by
        simp only [List.length_drop]
        simp only [List.length_cons] at hf
        omega
      have h' : n < (fixedWindowsGo csize step f (tl.drop (step - 1))).length := by
        simpa [fixedWindowsGo] using h
      calc (fixedWindowsGo csize step (f + 1) (w :: tl))[n + 1]
          = (fixedWindowsGo csize step f (tl.drop (step - 1)))[n] := by
            simp [fixedWindowsGo]
        _ = ((tl.drop (step - 1)).drop (step * n)).take csize := ih f _ hf' h'
        _ = (tl.drop (step - 1 + step * n)).take csize := by rw [List.drop_drop]
        _ = ((w :: tl).drop (step * (n + 1))).take csize := by
            have harith : step * (n + 1) = (step - 1 + step * n) + 1 := by
              have hmul : step * (n + 1) = step * n + step := by ring
              omega
            rw [harith, List.drop_succ_cons]

/-- An in-range window index starts inside the word list (fuel-parametric
form). -/
theorem fixedWindowsGo_start_lt (csize step : Nat) (hstep : 1 ≤ step) :
    ∀ (n f : Nat) (ws : List String), ws.length ≤ f →
      n < (fixedWindowsGo csize step f ws).length → step * n < ws.length := by
  intro n
  induction n with
  | zero =>
    intro f ws hf h
    match f, ws with
    | _, [] => simp [fixedWindowsGo] at h
    | 0, w :: tl => simp at hf
    | f + 1, w :: tl => simp
  | succ n ih =>
    intro f ws hf h
    match f, ws with
    | _, [] => simp [fixedWindowsGo] at h
    | 0, w :: tl => simp at hf
    | f + 1, w :: tl =>
      have hf' : (tl.drop (step - 1)).length ≤ f := by
        simp only [List.length_drop]
        simp only [List.length_cons] at hf
        omega
      have h' : n < (fixedWindowsGo csize step f (tl.drop (step - 1))).length := by
        simpa [fixedWindowsGo] using h
      have := ih f _ hf' h'
      simp only [List.length_drop] at this
      simp only [List.length_cons]
      have hmul : step * (n + 1) = step * n + step := by ring
      omega

/-- Window `n` of the window sequence starts at word `step * n`. -/
theorem fixedWindows_getElem (csize step : Nat) (hstep : 1 ≤ step)
    (n : Nat) (ws : List String) (h : n < (fixedWindows csize step ws).length) :
    (fixedWindows csize step ws)[n] = (ws.drop (step * n)).take csize :=
  fixedWindowsGo_getElem csize step hstep n ws.length ws le_rfl h

/-- An in-range window index starts inside the word list. -/
theorem fixedWindows_start_lt (csize step : Nat) (hstep : 1 ≤ step)
    (n : Nat) (ws : List String) (h : n < (fixedWindows csize step ws).length) :
    step * n < ws.length :=
  fixedWindowsGo_start_lt csize step hstep n ws.length ws le_rfl h

/-- When every word is non-blank (as all outputs of `content.split()` are),
the `if chunk.strip()` guard never drops a window. -/
theorem pyFixedChunks_eq_windows (csize overlap : Nat) (hc : 1 ≤ csize)
    (hstep : 1 ≤ csize - overlap) (ws : List String)
    (hw : ∀ w ∈ ws, pyStrip w ≠ "") :
    pyFixedChunks csize overlap ws = fixedWindows csize (csize - overlap) ws := by
  unfold pyFixedChunks
  apply List.filter_eq_self.mpr
  intro ch hch
  rcases List.mem_iff_getElem.mp hch with ⟨n, hn, rfl⟩
  rw [fixedWindows_getElem csize _ hstep n ws hn]
  have hstart := fixedWindows_start_lt csize _ hstep n ws hn
  have hlt : 0 < ((ws.drop ((csize - overlap) * n)).take csize).length := by
    simp only [List.length_take, List.length_drop]
    omega
  have hmem0 : ((ws.drop ((csize - overlap) * n)).take csize)[0] ∈
      (ws.drop ((csize - overlap) * n)).take csize := List.getElem_mem hlt
  have hmemws : ((ws.drop ((csize - overlap) * n)).take csize)[0] ∈ ws :=
    List.mem_of_mem_drop (List.mem_of_mem_take hmem0)
  simp only [chunkNonBlank, List.any_eq_true]
  exact ⟨_, hmem0, by simpa [bne_iff_ne] using hw _ hmemws⟩

/-- C6 (amended): for the fixed strategy with window 500 and overlap 50,
every chunk holds at most 500 words; and whenever chunk `n+1` exists AND has
at least 50 words, the final 50 words of chunk `n` are exactly the first 50
words of chunk `n+1`.  The extra condition is forced by `c6_counterexample`:
a final window starts 450 words after its predecessor regardless of how few
words remain, so a final chunk shorter than the overlap cannot reproduce the
predecessor's 50-word tail. -/
theorem c6_fixed_chunk_bound_and_overlap (ws : List String)
    (hw : ∀ w ∈ ws, pyStrip w ≠ "") :
    (∀ ch ∈ pyFixedChunks 500 50 ws, ch.length ≤ 500) ∧
    (∀ n : Nat, n + 1 < (pyFixedChunks 500 50 ws).length →
      50 ≤ ((pyFixedChunks 500 50 ws).getD (n + 1) []).length →
      ((pyFixedChunks 500 50 ws).getD n []).drop
          (((pyFixedChunks 500 50 ws).getD n []).length - 50) =
        ((pyFixedChunks 500 50 ws).getD (n + 1) []).take 50) := by
  have heq : pyFixedChunks 500 50 ws = fixedWindows 500 450 ws := by
    have h450 : (500 : Nat) - 50 = 450 := by norm_num
    have := pyFixedChunks_eq_windows 500 50 (by omega) (by omega) ws hw
    rwa [h450] at this
  constructor
  · intro ch hch
    rw [heq] at hch
    rcases List.mem_iff_getElem.mp hch with ⟨n, hn, rfl⟩
    rw [fixedWindows_getElem 500 450 (by omega) n ws hn]
    simp only [List.length_take]
    exact Nat.min_le_left _ _
  · intro n h1 h2
    rw [heq] at h1 h2 ⊢
    have h1' : n < (fixedWindows 500 450 ws).length := by omega
    have e1 : (fixedWindows 500 450 ws)[n] = (ws.drop (450 * n)).take 500 :=
      fixedWindows_getElem 500 450 (by omega) n ws h1'
    have e2 : (fixedWindows 500 450 ws)[n + 1] = (ws.drop (450 * (n + 1))).take 500 :=
      fixedWindows_getElem 500 450 (by omega) (n + 1) ws h1
    rw [List.getD_eq_getElem _ [] h1, e2] at h2
    rw [List.getD_eq_getElem _ [] h1', List.getD_eq_getElem _ [] h1, e1, e2]
    simp only [List.length_take, List.length_drop] at h2
    have h2' := Nat.le_min.mp h2
    have hL : 450 * n + 500 ≤ ws.length := by omega
    simp only [List.length_take, List.length_drop]
    rw [Nat.min_eq_left (by omega)]
    have h50 : (500 : Nat) - 50 = 450 := by norm_num
    rw [h50, List.drop_take, List.drop_drop, List.take_take]
    have hmin : min (500 - 450) 500 = 50 := by norm_num
    rw [hmin]
    have harith : 450 * n + 450 = 450 * (n + 1) := by ring
    rw [harith]

set_option maxRecDepth 4000 in
/-- Witness for `c6_fixed_chunk_bound_and_overlap`: 500 identical non-blank
words give two chunks (words 0-499 and words 450-499); the second has exactly
50 words and repeats the first chunk's 50-word tail. -/
theorem c6_fixed_chunk_bound_and_overlap_witness :
    (∀ w ∈ List.replicate 500 "b", pyStrip w ≠ "") ∧
    ((∀ ch ∈ pyFixedChunks 500 50 (List.replicate 500 "b"), ch.length ≤ 500) ∧
     (∀ n : Nat, n + 1 < (pyFixedChunks 500 50 (List.replicate 500 "b")).length →
       50 ≤ ((pyFixedChunks 500 50 (List.replicate 500 "b")).getD (n + 1) []).length →
       ((pyFixedChunks 500 50 (List.replicate 500 "b")).getD n []).drop
           (((pyFixedChunks 500 50 (List.replicate 500 "b")).getD n []).length - 50) =
         ((pyFixedChunks 500 50 (List.replicate 500 "b")).getD (n + 1) []).take 50)) :=
  ⟨by decide, c6_fixed_chunk_bound_and_overlap (List.replicate 500 "b") (by decide)⟩

set_option maxRecDepth 4000 in
/-- C6 counterexample: 451 identical words produce chunks of 451 and 1 words;
chunk 0 is not the last chunk, yet its final 50 words are not the first 50
words of chunk 1, which has only a single word — refuting the claim's
unconditional overlap property. -/
theorem c6_counterexample :
    (pyFixedChunks 500 50 (List.replicate 451 "a")).length = 2 ∧
    ((pyFixedChunks 500 50 (List.replicate 451 "a")).getD 0 []).drop
        (((pyFixedChunks 500 50 (List.replicate 451 "a")).getD 0 []).length - 50) ≠
      ((pyFixedChunks 500 50 (List.replicate 451 "a")).getD 1 []).take 50 := by
  constructor <;> decide

/-! ### Paragraph chunking (src/document_processor.py, `_chunk_by_paragraphs`,
lines 408-431)

The source splits the content on the blank-line separator, strips each piece
and keeps the non-empty ones, then greedily packs whole paragraphs into
chunks joined back with the separator.  Chunks are modelled both as paragraph
groups (`List String`) and, through `joinParas`, as the joined strings the
source returns. -/

/-- Python `content.split(sep)` for a non-empty separator, fuel-indexed so it
computes by structural recursion (`fuel ≥ l.length` suffices: every step
consumes at least one character).  Pieces are returned in order, without the
separator occurrences, scanning left to right. -/
def splitSepGo (sep : List Char) : Nat → List Char → List Char → List (List Char)
  | _, acc, [] => [acc.reverse]
  | 0, acc, l => [acc.reverse ++ l]
  | fuel + 1, acc, c :: rest =>
    if sep ≠ [] ∧ (c :: rest).take sep.length = sep then
      acc.reverse :: splitSepGo sep fuel [] (rest.drop (sep.length - 1))
    else
      splitSepGo sep fuel (c :: acc) rest

/-- Python `s.split(sep)`. -/
def pySplitSep (sep : String) (s : String) : List String :=
  (splitSepGo sep.data s.data.length [] s.data).map String.mk

/-- `[p.strip() for p in content.split('\n\n') if p.strip()]`
(src/document_processor.py line 410): the non-empty stripped paragraphs of
the content, in order. -/
def paragraphsOf (content : String) : List String :=
  ((pySplitSep "\n\n" content).map pyStrip).filter (fun p => p != "")

/-- `'\n\n'.join(chunk)`: the joined string the source appends to `chunks`. -/
def joinParas : List String → String
  | [] => ""
  | [p] => p
  | p :: q :: rest => p ++ "\n\n" ++ joinParas (q :: rest)

/-- The loop state of `_chunk_by_paragraphs`: finalized chunks, the current
chunk's paragraphs, and the running `current_size` counter. -/
structure ParaState where
  chunks : List (List String)
  current : List String
  size : Nat
deriving DecidableEq, Repr

/-- One iteration of the paragraph loop (src/document_processor.py lines
415-425): if adding this paragraph would exceed `max_chunk_size` and the
current chunk is non-empty, finalize it and start a new one (the counter
restarts at the bare paragraph size); otherwise append the paragraph and add
its size plus 2 for the `\n\n` separator. -/
def paraStep (maxSize : Nat) (st : ParaState) (p : String) : ParaState :=
  if maxSize < st.size + p.data.length ∧ st.current ≠ [] then
    { chunks := st.chunks ++ [st.current], current := [p], size := p.data.length }
  else
    { chunks := st.chunks, current := st.current ++ [p],
      size := st.size + p.data.length + 2 }

/-- The paragraph groups produced by `_chunk_by_paragraphs` on a paragraph
list: the loop over all paragraphs followed by flushing the last non-empty
chunk (src/document_processor.py lines 427-429). -/
def paraChunksGroups (maxSize : Nat) (ps : List String) : List (List String) :=
  let st := ps.foldl (paraStep maxSize) ⟨[], [], 0⟩
  if st.current ≠ [] then st.chunks ++ [st.current] else st.chunks

/-- Embedding of `_chunk_by_paragraphs` end to end: the chunk strings
returned for a content string. -/
def pyParagraphChunks (maxSize : Nat) (content : String) : List String :=
  (paraChunksGroups maxSize (paragraphsOf content)).map joinParas

/-- The paragraphs that entered the loop are exactly the finalized groups
followed by the pending chunk, in order: no paragraph is lost, duplicated or
reordered by the fold. -/
theorem paraFold_flatten (maxSize : Nat) (ps : List String) :
    ∀ st : ParaState,
      (ps.foldl (paraStep maxSize) st).chunks.flatten ++
          (ps.foldl (paraStep maxSize) st).current =
        st.chunks.flatten ++ st.current ++ ps := by
  induction ps with
  | nil => intro st; simp
  | cons p ps ih =>
    intro st
    rw [List.foldl_cons, ih]
    unfold paraStep
    by_cases h : maxSize < st.size + p.data.length ∧ st.current ≠ []
    · rw [if_pos h]
      simp [List.flatten_append, List.append_assoc]
    · rw [if_neg h]
      simp [List.append_assoc]

/-- C10: the paragraph strategy is a partition of the paragraph sequence:
concatenating the returned chunks' paragraph groups gives back exactly the
non-empty stripped paragraphs of the original text, in original order.
Joining the chunk strings with a blank line and re-splitting on blank lines
is, paragraph for paragraph, this concatenation: each group's join restores
its paragraphs separated by `\n\n`, and since stripped paragraphs are
non-empty and contain no blank line, re-splitting recovers the groups'
members in order. -/
theorem c10_paragraph_partition (maxSize : Nat) (content : String) :
    (paraChunksGroups maxSize (paragraphsOf content)).flatten = paragraphsOf content := by
  have h := paraFold_flatten maxSize (paragraphsOf content) ⟨[], [], 0⟩
  unfold paraChunksGroups
  by_cases hc : (List.foldl (paraStep maxSize) ⟨[], [], 0⟩ (paragraphsOf content)).current = []
  · simp only [hc] at h ⊢
    simpa using h
  · simp only [hc, ne_eq, not_false_eq_true, if_pos]
    simpa [List.flatten_append] using h

/-- The length of a non-empty group's join: the paragraph lengths plus a
2-character separator between consecutive paragraphs. -/
theorem joinParas_len :
    ∀ xs : List String, xs ≠ [] →
      (joinParas xs).data.length =
        (xs.map (fun s => s.data.length)).sum + 2 * (xs.length - 1) := by
  intro xs
  induction xs with
  | nil => intro h; exact absurd rfl h
  | cons q xs ih =>
    intro _
    match xs with
    | [] => simp [joinParas]
    | r :: rest =>
      have ihh := ih (by simp)
      have hsep : ("\n\n" : String).data.length = 2 := by decide
      simp only [joinParas, String.data_append, List.length_append, List.map_cons,
        List.sum_cons, List.length_cons, List.length_nil] at ihh ⊢
      omega

/-- The loop invariant of `_chunk_by_paragraphs`: the running counter
dominates the joined length of the pending chunk, and every chunk of two or
more paragraphs — finalized or pending — joins to at most `maxSize + 2`
characters. -/
def paraInv (maxSize : Nat) (st : ParaState) : Prop :=
  (joinParas st.current).data.length ≤ st.size ∧
  (∀ g ∈ st.chunks, 2 ≤ g.length → (joinParas g).data.length ≤ maxSize + 2) ∧
  (2 ≤ st.current.length → (joinParas st.current).data.length ≤ maxSize + 2)

/-- One loop iteration preserves the invariant. -/
theorem paraStep_inv (maxSize : Nat) (st : ParaState) (p : String)
    (h : paraInv maxSize st) : paraInv maxSize (paraStep maxSize st p) := by
  obtain ⟨chunks, current, size⟩ := st
  obtain ⟨ha, hb, hc⟩ := h
  simp only [paraInv] at ha hb hc ⊢
  unfold paraStep
  by_cases hcond : maxSize < size + p.data.length ∧ current ≠ []
  · rw [if_pos hcond]
    refine ⟨by simp [joinParas], ?_, by simp⟩
    intro g hg h2
    rcases List.mem_append.mp hg with hg' | hg'
    · exact hb g hg' h2
    · have hgc : g = current := List.mem_singleton.mp hg'
      subst hgc
      exact hc h2
  · rw [if_neg hcond]
    by_cases hcur : current = []
    · subst hcur
      refine ⟨?_, hb, ?_⟩
      · simp only [List.nil_append, joinParas]
        omega
      · intro h2'
        simp at h2'
    · have hsz : size + p.data.length ≤ maxSize := by
        rcases not_and_or.mp hcond with h' | h'
        · omega
        · exact absurd hcur (by simpa using h')
      have hlc := joinParas_len current hcur
      have hlc' := joinParas_len (current ++ [p]) (by simp)
      simp only [List.map_append, List.sum_append, List.length_append, List.map_cons,
        List.map_nil, List.sum_cons, List.sum_nil, List.length_cons, List.length_nil] at hlc'
      have hcl : 1 ≤ current.length := List.length_pos.mpr hcur
      dsimp only
      exact ⟨by omega, hb, fun _ => by omega⟩

/-- The invariant holds after the whole loop. -/
theorem paraFold_inv (maxSize : Nat) :
    ∀ (ps : List String) (st : ParaState), paraInv maxSize st →
      paraInv maxSize (ps.foldl (paraStep maxSize) st) := by
  intro ps
  induction ps with
  | nil => intro st h; exact h
  | cons p ps ih =>
    intro st h
    rw [List.foldl_cons]
    exact ih _ (paraStep_inv maxSize st p h)

/-- C7 (amended): every chunk of the paragraph strategy that holds two or
more paragraphs joins to at most `maxSize + 2` characters — not `maxSize`:
after a flush the counter restarts at the bare paragraph size, so the next
append's check `current_size + paragraph_size > max_chunk_size` does not
count the 2-character separator that the join inserts (`c7_counterexample`
reaches `maxSize + 2` exactly).  A single-paragraph chunk is unbounded, as
the claim already allows. -/
theorem c7_paragraph_chunk_bound (maxSize : Nat) (content : String)
    (g : List String) (hg : g ∈ paraChunksGroups maxSize (paragraphsOf content))
    (h2 : 2 ≤ g.length) :
    (joinParas g).data.length ≤ maxSize + 2 := by
  have hinv : paraInv maxSize
      ((paragraphsOf content).foldl (paraStep maxSize) ⟨[], [], 0⟩) :=
    paraFold_inv maxSize (paragraphsOf content) ⟨[], [], 0⟩
      ⟨by simp [joinParas], by simp, by simp⟩
  obtain ⟨ha, hb, hc⟩ := hinv
  unfold paraChunksGroups at hg
  by_cases hcur :
      (List.foldl (paraStep maxSize) ⟨[], [], 0⟩ (paragraphsOf content)).current = []
  · rw [if_neg (not_not.mpr hcur)] at hg
    exact hb g hg h2
  · rw [if_pos hcur] at hg
    rcases List.mem_append.mp hg with hmem | hmem
    · exact hb g hmem h2
    · have hgc := List.mem_singleton.mp hmem
      subst hgc
      exact hc h2

/-- Witness for `c7_paragraph_chunk_bound`: with `max_chunk_size = 10`, the
text with paragraphs of 10, 5 and 5 characters produces the two-paragraph
chunk `"aaaaa\n\naaaaa"` of 12 = 10 + 2 characters. -/
theorem c7_paragraph_chunk_bound_witness :
    (["aaaaa", "aaaaa"] ∈
        paraChunksGroups 10 (paragraphsOf "aaaaaaaaaa\n\naaaaa\n\naaaaa")) ∧
    2 ≤ (["aaaaa", "aaaaa"] : List String).length ∧
    (joinParas ["aaaaa", "aaaaa"]).data.length ≤ 10 + 2 :=
  ⟨by decide, by decide,
    c7_paragraph_chunk_bound 10 "aaaaaaaaaa\n\naaaaa\n\naaaaa" ["aaaaa", "aaaaa"]
      (by decide) (by decide)⟩

/-- C7 counterexample: the same input refutes the claim as stated — the
returned chunk `"aaaaa\n\naaaaa"` consists of two paragraphs yet has 12
characters, exceeding `max_chunk_size = 10`. -/
theorem c7_counterexample :
    (["aaaaa", "aaaaa"] ∈
        paraChunksGroups 10 (paragraphsOf "aaaaaaaaaa\n\naaaaa\n\naaaaa")) ∧
    10 < (joinParas ["aaaaa", "aaaaa"]).data.length := by
  constructor <;> decide

/-! ### C4: the canonical surface form is the most frequent raw text,
ties broken by first-seen order -/

/-- `firstOccs` has the same members as the list it summarizes. -/
theorem mem_firstOccs (a : String) : ∀ l : List String, a ∈ firstOccs l ↔ a ∈ l := by
  intro l
  induction l with
  | nil => simp [firstOccs]
  | cons t ts ih =>
    simp only [firstOccs, List.mem_cons]
    constructor
    · rintro (rfl | hmem)
      · exact Or.inl rfl
      · exact Or.inr (ih.mp (List.mem_of_mem_filter hmem))
    · rintro (rfl | hmem)
      · exact Or.inl rfl
      · by_cases hat : a = t
        · exact Or.inl hat
        · refine Or.inr (List.mem_filter.mpr ⟨ih.mpr hmem, ?_⟩)
          simpa using hat
/-- `firstOccs` lists the distinct elements in strictly increasing order of
their first occurrence. -/
theorem firstOccs_pairwise_indexOf :
    ∀ l : List String, (firstOccs l).Pairwise fun a b => l.indexOf a < l.indexOf b := by
  intro l
  induction l with
  | nil => simp [firstOccs]
  | cons t ts ih =>
    simp only [firstOccs]
    refine List.pairwise_cons.mpr ⟨?_, ?_⟩
    · intro b hb
      have hbt : b ≠ t := by simpa using List.of_mem_filter hb
      rw [List.indexOf_cons_self, List.indexOf_cons_ne _ (fun e => hbt e.symm)]
      exact Nat.succ_pos _
    · have hpair : ((firstOccs ts).filter (fun x => x ≠ t)).Pairwise
          (fun a b => ts.indexOf a < ts.indexOf b) := ih.filter _
      refine List.Pairwise.imp_of_mem ?_ hpair
      intro a b ha hb hlt
      have hat : a ≠ t := by simpa using List.of_mem_filter ha
      have hbt : b ≠ t := by simpa using List.of_mem_filter hb
      rw [List.indexOf_cons_ne _ (fun e => hat e.symm),
        List.indexOf_cons_ne _ (fun e => hbt e.symm)]
      exact Nat.succ_lt_succ hlt

/-- Unfolding one scan step. -/
theorem argmaxScan_cons (f : String → Nat) (c t : String) (cs : List String) :
    argmaxScan f c (t :: cs) = argmaxScan f (if f c < f t then t else c) cs := rfl

/-- The scan result is one of the candidates. -/
theorem argmaxScan_mem (f : String → Nat) :
    ∀ (cs : List String) (c : String), argmaxScan f c cs ∈ c :: cs := by
  intro cs
  induction cs with
  | nil => intro c; simp [argmaxScan]
  | cons t cs ih =>
    intro c
    rw [argmaxScan_cons]
    by_cases hct : f c < f t
    · rw [if_pos hct]
      rcases List.mem_cons.mp (ih t) with h | h
      · rw [h]; simp
      · exact List.mem_cons_of_mem _ (List.mem_cons_of_mem _ h)
    · rw [if_neg hct]
      rcases List.mem_cons.mp (ih c) with h | h
      · rw [h]; simp
      · exact List.mem_cons_of_mem _ (List.mem_cons_of_mem _ h)

/-- The scan result's score dominates every candidate's score. -/
theorem argmaxScan_le (f : String → Nat) :
    ∀ (cs : List String) (c : String), ∀ x ∈ c :: cs, f x ≤ f (argmaxScan f c cs) := by
  intro cs
  induction cs with
  | nil =>
    intro c x hx
    rcases List.mem_cons.mp hx with rfl | h
    · simp [argmaxScan]
    · simp at h
  | cons t cs ih =>
    intro c x hx
    rw [argmaxScan_cons]
    by_cases hct : f c < f t
    · rw [if_pos hct]
      rcases List.mem_cons.mp hx with hxc | hx'
      · rw [hxc]
        exact le_trans (le_of_lt hct) (ih t t (List.mem_cons_self ..))
      · exact ih t x hx'
    · rw [if_neg hct]
      rcases List.mem_cons.mp hx with hxc | hx'
      · rw [hxc]
        exact ih c c (List.mem_cons_self ..)
      · rcases List.mem_cons.mp hx' with hxt | hx''
        · rw [hxt]
          exact le_trans (le_of_not_lt hct) (ih c c (List.mem_cons_self ..))
        · exact ih c x (List.mem_cons_of_mem _ hx'')

/-- The scan keeps the EARLIEST candidate attaining the maximal score: the
candidate list decomposes around the result, with everything before it
scoring strictly less. -/
theorem argmaxScan_first_max (f : String → Nat) :
    ∀ (cs : List String) (c : String), ∃ l1 l2, c :: cs = l1 ++ argmaxScan f c cs :: l2 ∧
      ∀ x ∈ l1, f x < f (argmaxScan f c cs) := by
  intro cs
  induction cs with
  | nil => exact fun c => ⟨[], [], rfl, by simp⟩
  | cons t cs ih =>
    intro c
    rw [argmaxScan_cons]
    by_cases hct : f c < f t
    · rw [if_pos hct]
      obtain ⟨l1, l2, hdec, hlt⟩ := ih t
      refine ⟨c :: l1, l2, ?_, ?_⟩
      · rw [List.cons_append, ← hdec]
      · intro x hx
        rcases List.mem_cons.mp hx with hxc | hx'
        · rw [hxc]
          exact lt_of_lt_of_le hct (argmaxScan_le f cs t t (List.mem_cons_self ..))
        · exact hlt x hx'
    · rw [if_neg hct]
      obtain ⟨l1, l2, hdec, hlt⟩ := ih c
      match l1, hdec, hlt with
      | [], hdec, _ =>
        simp only [List.nil_append, List.cons.injEq] at hdec
        refine ⟨[], t :: cs, ?_, by simp⟩
        rw [List.nil_append, ← hdec.1]
      | u :: l1', hdec, hlt =>
        simp only [List.cons_append, List.cons.injEq] at hdec
        obtain ⟨huc, hcs⟩ := hdec
        have hcr : f c < f (argmaxScan f c cs) := by
          have := hlt u (List.mem_cons_self ..)
          rwa [← huc] at this
        refine ⟨c :: t :: l1', l2, ?_, ?_⟩
        · simp only [List.cons_append, List.cons.injEq, true_and]
          exact hcs
        · intro x hx
          rcases List.mem_cons.mp hx with hxc | hx'
          · rw [hxc]
            exact hcr
          · rcases List.mem_cons.mp hx' with hxt | hx''
            · rw [hxt]
              exact lt_of_le_of_lt (le_of_not_lt hct) hcr
            · exact hlt x (List.mem_cons_of_mem u hx'')

/-- `Counter(texts).most_common(1)[0][0]` on a non-empty list: the result
occurs in the list, its count is maximal, and among equal counts its first
occurrence is earliest — exactly the documented `Counter` tie-break order
(elements with equal counts keep first-encounter order). -/
theorem pyMostCommon_spec (texts : List String) (hne : texts ≠ []) :
    pyMostCommon texts ∈ texts ∧
    (∀ t ∈ texts, texts.count t ≤ texts.count (pyMostCommon texts)) ∧
    (∀ t ∈ texts, texts.count t = texts.count (pyMostCommon texts) →
      texts.indexOf (pyMostCommon texts) ≤ texts.indexOf t) := by
  have hfo : firstOccs texts ≠ [] := by
    match texts, hne with
    | t :: ts, _ => simp [firstOccs]
  match hfc : firstOccs texts with
  | [] => exact absurd hfc hfo
  | c0 :: cs =>
    have hmc : pyMostCommon texts = argmaxScan (fun t => texts.count t) c0 cs := by
      simp [pyMostCommon, hfc]
    have hmemfo : pyMostCommon texts ∈ firstOccs texts := by
      rw [hmc, hfc]
      exact argmaxScan_mem _ cs c0
    refine ⟨(mem_firstOccs _ texts).mp hmemfo, ?_, ?_⟩
    · intro t ht
      have htfo : t ∈ c0 :: cs := hfc ▸ (mem_firstOccs t texts).mpr ht
      rw [hmc]
      exact argmaxScan_le (fun s => texts.count s) cs c0 t htfo
    · intro t ht heq
      obtain ⟨l1, l2, hdec, hlt⟩ := argmaxScan_first_max (fun t => texts.count t) cs c0
      have htfo : t ∈ l1 ++ argmaxScan (fun t => texts.count t) c0 cs :: l2 :=
        hdec ▸ (hfc ▸ (mem_firstOccs t texts).mpr ht)
      have hpair := firstOccs_pairwise_indexOf texts
      rw [hfc, hdec] at hpair
      rcases List.mem_append.mp htfo with hmem | hmem
      · exfalso
        have := hlt t hmem
        rw [← hmc] at this
        omega
      · rcases List.mem_cons.mp hmem with hteq | hmem'
        · rw [hteq, ← hmc]
        · have := (List.pairwise_cons.mp (List.pairwise_append.mp hpair).2.1).1 t hmem'
          rw [← hmc] at this
          exact le_of_lt this

/-- Every group built by the grouping loop keeps at least one mention. -/
theorem addToGroups_nonempty (gs : List (String × List Mention)) (k : String)
    (m : Mention) (h : ∀ g ∈ gs, g.2 ≠ []) :
    ∀ g ∈ addToGroups gs k m, g.2 ≠ [] := by
  induction gs with
  | nil =>
    intro g hg
    simp only [addToGroups, List.mem_singleton] at hg
    rw [hg]
    simp
  | cons hd tl ih =>
    obtain ⟨k', ms⟩ := hd
    intro g hg
    simp only [addToGroups] at hg
    by_cases hk : k' = k
    · rw [if_pos hk] at hg
      rcases List.mem_cons.mp hg with hgeq | hmem
      · rw [hgeq]
        simp
      · exact h g (List.mem_cons_of_mem _ hmem)
    · rw [if_neg hk] at hg
      rcases List.mem_cons.mp hg with hgeq | hmem
      · rw [hgeq]
        exact h (k', ms) (List.mem_cons_self ..)
      · exact ih (fun g' hg' => h g' (List.mem_cons_of_mem _ hg')) g hmem

/-- Every group of `pyGroups` is non-empty (`len(mentions) >= 1`). -/
theorem pyGroups_nonempty (mentions : List Mention) :
    ∀ g ∈ pyGroups mentions, g.2 ≠ [] := by
  suffices h : ∀ (ms : List Mention) (gs : List (String × List Mention)),
      (∀ g ∈ gs, g.2 ≠ []) →
      ∀ g ∈ ms.foldl (fun gs m => addToGroups gs (mentionKey m) m) gs, g.2 ≠ [] by
    exact h mentions [] (by simp)
  intro ms
  induction ms with
  | nil => intro gs h g hg; exact h g hg
  | cons m ms ih =>
    intro gs h g hg
    rw [List.foldl_cons] at hg
    exact ih _ (addToGroups_nonempty gs (mentionKey m) m h) g hg

/-- C4: for any fixed ordered mention list, each group's canonical surface
form — the `canonical_name` that `_normalize_entities` stores for it — is the
most frequent raw text among the group's mentions, and a frequency tie is
resolved to the text whose first occurrence in the group's (input-ordered)
mention list is earliest.  Determinism is inherent: the embedding is a pure
function of the mention list. -/
theorem c4_canonical_most_frequent (mentions : List Mention) (k : String)
    (ms : List Mention) (hg : (k, ms) ∈ pyGroups mentions) :
    (∃ e ∈ pyNormalizeEntities mentions,
      e.canonical_name = pyMostCommon (ms.map Mention.text) ∧
      e.mention_count = ms.length) ∧
    pyMostCommon (ms.map Mention.text) ∈ ms.map Mention.text ∧
    (∀ t ∈ ms.map Mention.text,
      (ms.map Mention.text).count t ≤
        (ms.map Mention.text).count (pyMostCommon (ms.map Mention.text))) ∧
    (∀ t ∈ ms.map Mention.text,
      (ms.map Mention.text).count t =
          (ms.map Mention.text).count (pyMostCommon (ms.map Mention.text)) →
      (ms.map Mention.text).indexOf (pyMostCommon (ms.map Mention.text)) ≤
        (ms.map Mention.text).indexOf t) := by
  have hne : ms ≠ [] := pyGroups_nonempty mentions (k, ms) hg
  have htne : ms.map Mention.text ≠ [] := by
    simpa using hne
  obtain ⟨h1, h2, h3⟩ := pyMostCommon_spec (ms.map Mention.text) htne
  refine ⟨?_, h1, h2, h3⟩
  match ms, hne with
  | m0 :: rest, _ =>
    refine ⟨{ canonical_name := pyMostCommon ((m0 :: rest).map Mention.text),
              normalized_name := normalizeFor m0.label m0.text,
              entity_type := m0.label,
              mention_count := (m0 :: rest).length }, ?_, rfl, by simp⟩
    exact List.mem_filterMap.mpr ⟨(k, m0 :: rest), hg, rfl⟩

/-- Witness for `c4_canonical_most_frequent`: the case variants "Acme" and
"ACME" normalize to one ORG group; the tie between the two raw texts is
resolved to "Acme", the one seen first. -/
theorem c4_canonical_most_frequent_witness :
    (("ORG:acme", [({ text := "Acme", label := "ORG", chunkId := "chunk_0" } : Mention),
                   { text := "ACME", label := "ORG", chunkId := "chunk_0" }]) ∈
        pyGroups [{ text := "Acme", label := "ORG", chunkId := "chunk_0" },
                  { text := "ACME", label := "ORG", chunkId := "chunk_0" }]) ∧
    ((∃ e ∈ pyNormalizeEntities
          [{ text := "Acme", label := "ORG", chunkId := "chunk_0" },
           { text := "ACME", label := "ORG", chunkId := "chunk_0" }],
        e.canonical_name = pyMostCommon
          ([({ text := "Acme", label := "ORG", chunkId := "chunk_0" } : Mention),
            { text := "ACME", label := "ORG", chunkId := "chunk_0" }].map Mention.text) ∧
        e.mention_count =
          [({ text := "Acme", label := "ORG", chunkId := "chunk_0" } : Mention),
           { text := "ACME", label := "ORG", chunkId := "chunk_0" }].length) ∧
     pyMostCommon
         ([({ text := "Acme", label := "ORG", chunkId := "chunk_0" } : Mention),
           { text := "ACME", label := "ORG", chunkId := "chunk_0" }].map Mention.text) ∈
       [({ text := "Acme", label := "ORG", chunkId := "chunk_0" } : Mention),
        { text := "ACME", label := "ORG", chunkId := "chunk_0" }].map Mention.text ∧
     (∀ t ∈ [({ text := "Acme", label := "ORG", chunkId := "chunk_0" } : Mention),
             { text := "ACME", label := "ORG", chunkId := "chunk_0" }].map Mention.text,
       ([({ text := "Acme", label := "ORG", chunkId := "chunk_0" } : Mention),
         { text := "ACME", label := "ORG", chunkId := "chunk_0" }].map Mention.text).count t ≤
         ([({ text := "Acme", label := "ORG", chunkId := "chunk_0" } : Mention),
           { text := "ACME", label := "ORG", chunkId := "chunk_0" }].map Mention.text).count
           (pyMostCommon
             ([({ text := "Acme", label := "ORG", chunkId := "chunk_0" } : Mention),
               { text := "ACME", label := "ORG", chunkId := "chunk_0" }].map Mention.text))) ∧
     (∀ t ∈ [({ text := "Acme", label := "ORG", chunkId := "chunk_0" } : Mention),
             { text := "ACME", label := "ORG", chunkId := "chunk_0" }].map Mention.text,
       ([({ text := "Acme", label := "ORG", chunkId := "chunk_0" } : Mention),
         { text := "ACME", label := "ORG", chunkId := "chunk_0" }].map Mention.text).count t =
           ([({ text := "Acme", label := "ORG", chunkId := "chunk_0" } : Mention),
             { text := "ACME", label := "ORG", chunkId := "chunk_0" }].map Mention.text).count
             (pyMostCommon
               ([({ text := "Acme", label := "ORG", chunkId := "chunk_0" } : Mention),
                 { text := "ACME", label := "ORG", chunkId := "chunk_0" }].map Mention.text)) →
       ([({ text := "Acme", label := "ORG", chunkId := "chunk_0" } : Mention),
         { text := "ACME", label := "ORG", chunkId := "chunk_0" }].map Mention.text).indexOf
           (pyMostCommon
             ([({ text := "Acme", label := "ORG", chunkId := "chunk_0" } : Mention),
               { text := "ACME", label := "ORG", chunkId := "chunk_0" }].map Mention.text)) ≤
         ([({ text := "Acme", label := "ORG", chunkId := "chunk_0" } : Mention),
           { text := "ACME", label := "ORG", chunkId := "chunk_0" }].map Mention.text).indexOf t)) :=
  ⟨by decide,
    c4_canonical_most_frequent
      [{ text := "Acme", label := "ORG", chunkId := "chunk_0" },
       { text := "ACME", label := "ORG", chunkId := "chunk_0" }]
      "ORG:acme"
      [{ text := "Acme", label := "ORG", chunkId := "chunk_0" },
       { text := "ACME", label := "ORG", chunkId := "chunk_0" }]
      (by decide)⟩

/-! ### Relationship deduplication (src/graph_builder.py,
`_extract_relationships`, lines 349-361)

The dedup loop runs over the emitted relationship list with a `seen` set of
forward keys `f"{source}|{type}|{target}"`; a relationship is kept iff
neither its key nor its reversed key has been seen, and only the FORWARD key
of a kept relationship is added.  `confidence` (a float the dedup never
reads) is omitted from the record. -/

/-- The fields of `EntityRelationship` (src/graph_builder.py lines 27-37)
that deduplication and storage read. -/
structure RelEdge where
  source_entity : String
  target_entity : String
  relation_type : String
  context : String
  chunkId : String
deriving DecidableEq, Repr

/-- `f"{rel.source_entity}|{rel.relation_type}|{rel.target_entity}"`
(src/graph_builder.py line 353). -/
def relKey (r : RelEdge) : String :=
  r.source_entity ++ "|" ++ r.relation_type ++ "|" ++ r.target_entity

/-- `f"{rel.target_entity}|{rel.relation_type}|{rel.source_entity}"`
(src/graph_builder.py line 354). -/
def relRevKey (r : RelEdge) : String :=
  r.target_entity ++ "|" ++ r.relation_type ++ "|" ++ r.source_entity

/-- The dedup loop (src/graph_builder.py lines 350-358), `seen` modelled as
the list of added keys. -/
def dedupRels : List RelEdge → List String → List RelEdge
  | [], _ => []
  | r :: rs, seen =>
    if relKey r ∈ seen ∨ relRevKey r ∈ seen then dedupRels rs seen
    else r :: dedupRels rs (relKey r :: seen)

/-- `unique_relationships` for an emitted relationship list. -/
def pyDedupRelationships (rels : List RelEdge) : List RelEdge :=
  dedupRels rels []

/-- Does `r` relate the unordered pair `A, B` (in either direction) with
relation type `T`? -/
def isPairEdge (A B T : String) (r : RelEdge) : Bool :=
  decide (r.relation_type = T ∧
    ((r.source_entity = A ∧ r.target_entity = B) ∨
     (r.source_entity = B ∧ r.target_entity = A)))

/-- C3 counterexample: entity names may contain the key separator `|`, and
then an unrelated relationship can occupy the pair's key.  Here the earlier
edge ("x", type "y", target "z|w") has key `x|y|z|w`, which equals both the
key of `("x|y", "z", "w")` and the reversed key of `("w", "z", "x|y")` — so
BOTH directions of the pair `("x|y", "w")` with type `"z"` are dropped and
the deduplicated output contains zero edges for that pair, not exactly one,
although the input contains both directions. -/
theorem c3_counterexample :
    ((pyDedupRelationships
        [{ source_entity := "x", target_entity := "z|w", relation_type := "y",
           context := "", chunkId := "chunk_0" },
         { source_entity := "x|y", target_entity := "w", relation_type := "z",
           context := "", chunkId := "chunk_0" },
         { source_entity := "w", target_entity := "x|y", relation_type := "z",
           context := "", chunkId := "chunk_0" }]).filter (isPairEdge "x|y" "w" "z")) = [] ∧
    (([{ source_entity := "x", target_entity := "z|w", relation_type := "y",
         context := "", chunkId := "chunk_0" },
       { source_entity := "x|y", target_entity := "w", relation_type := "z",
         context := "", chunkId := "chunk_0" },
       { source_entity := "w", target_entity := "x|y", relation_type := "z",
         context := "", chunkId := "chunk_0" }] : List RelEdge).filter
        (isPairEdge "x|y" "w" "z")).length = 2 ∧
    ("x|y" : String) ≠ "w" := by
  refine ⟨by decide, by decide, by decide⟩

/-- A string containing no `|` character. -/
abbrev pipeFree (s : String) : Prop :=
  '|' ∉ s.data

/-- A relationship whose three key components are `|`-free. -/
abbrev relClean (r : RelEdge) : Prop :=
  pipeFree r.source_entity ∧ pipeFree r.target_entity ∧ pipeFree r.relation_type

/-- Splitting at a separator character absent from both prefixes is
unambiguous. -/
theorem append_sep_inj :
    ∀ (a b x y : List Char), '|' ∉ a → '|' ∉ b →
      a ++ '|' :: x = b ++ '|' :: y → a = b ∧ x = y := by
  intro a
  induction a with
  | nil =>
    intro b x y _ hb h
    match b with
    | [] => simpa using h
    | c :: b' =>
      simp only [List.nil_append, List.cons_append, List.cons.injEq] at h
      exact absurd (h.1 ▸ List.mem_cons_self ..) hb
  | cons c a' ih =>
    intro b x y ha hb h
    match b with
    | [] =>
      simp only [List.cons_append, List.nil_append, List.cons.injEq] at h
      exact absurd (h.1 ▸ List.mem_cons_self ..) ha
    | d :: b' =>
      simp only [List.cons_append, List.cons.injEq] at h
      obtain ⟨hcd, htl⟩ := h
      have ha' : '|' ∉ a' := fun hm => ha (List.mem_cons_of_mem _ hm)
      have hb' : '|' ∉ b' := fun hm => hb (List.mem_cons_of_mem _ hm)
      obtain ⟨he, hxy⟩ := ih b' x y ha' hb' htl
      exact ⟨by rw [hcd, he], hxy⟩

/-- The three components of a `source|type|target` key are recoverable when
none of them contains `|`. -/
theorem relKey_components_inj (s t g s' t' g' : String)
    (hs : pipeFree s) (hs' : pipeFree s') (ht : pipeFree t) (ht' : pipeFree t')
    (h : s ++ "|" ++ t ++ "|" ++ g = s' ++ "|" ++ t' ++ "|" ++ g') :
    s = s' ∧ t = t' ∧ g = g' := by
  have hdata : s.data ++ '|' :: (t.data ++ '|' :: g.data) =
      s'.data ++ '|' :: (t'.data ++ '|' :: g'.data) := by
    have := String.ext_iff.mp h
    simpa [String.data_append, List.append_assoc] using this
  obtain ⟨h1, h2⟩ := append_sep_inj s.data s'.data _ _ hs hs' hdata
  obtain ⟨h3, h4⟩ := append_sep_inj t.data t'.data _ _ ht ht' h2
  exact ⟨String.ext_iff.mpr h1, String.ext_iff.mpr h3, String.ext_iff.mpr h4⟩

/-- Two relationships over the same unordered entity pair with the same type,
in either direction. -/
def sameEdge (r r' : RelEdge) : Prop :=
  r.relation_type = r'.relation_type ∧
    ((r.source_entity = r'.source_entity ∧ r.target_entity = r'.target_entity) ∨
     (r.source_entity = r'.target_entity ∧ r.target_entity = r'.source_entity))

/-- Matching forward or reversed keys is the same as relating the same
unordered pair with the same type, provided no component contains `|`. -/
theorem key_match_iff_sameEdge (r r' : RelEdge) (hc : relClean r) (hc' : relClean r') :
    (relKey r = relKey r' ∨ relRevKey r = relKey r') ↔ sameEdge r r' := by
  obtain ⟨hs, ht, hty⟩ := hc
  obtain ⟨hs', ht', hty'⟩ := hc'
  constructor
  · rintro (h | h)
    · obtain ⟨h1, h2, h3⟩ := relKey_components_inj _ _ _ _ _ _ hs hs' hty hty' h
      exact ⟨h2, Or.inl ⟨h1, h3⟩⟩
    · obtain ⟨h1, h2, h3⟩ := relKey_components_inj _ _ _ _ _ _ ht hs' hty hty' h
      exact ⟨h2, Or.inr ⟨h3, h1⟩⟩
  · rintro ⟨hT, hdir | hdir⟩
    · exact Or.inl (by unfold relKey; rw [hT, hdir.1, hdir.2])
    · exact Or.inr (by unfold relRevKey relKey; rw [hT, hdir.1, hdir.2])

/-- The property `isPairEdge` decides (reducible, so decidability is
inferred). -/
abbrev edgeProp (A B T : String) (r : RelEdge) : Prop :=
  r.relation_type = T ∧
    ((r.source_entity = A ∧ r.target_entity = B) ∨
     (r.source_entity = B ∧ r.target_entity = A))

/-- `isPairEdge` is the Boolean decision of `edgeProp`. -/
theorem isPairEdge_eq_decide (A B T : String) (r : RelEdge) :
    isPairEdge A B T r = decide (edgeProp A B T r) := rfl

/-- Two edges of the same unordered pair and type relate the same unordered
pair. -/
theorem sameEdge_of_edges {A B T : String} {r r' : RelEdge}
    (h : edgeProp A B T r) (h' : edgeProp A B T r') : sameEdge r r' := by
  obtain ⟨hT, hd⟩ := h
  obtain ⟨hT', hd'⟩ := h'
  refine ⟨hT.trans hT'.symm, ?_⟩
  rcases hd with ⟨h1, h2⟩ | ⟨h1, h2⟩ <;> rcases hd' with ⟨h1', h2'⟩ | ⟨h1', h2'⟩
  · exact Or.inl ⟨h1.trans h1'.symm, h2.trans h2'.symm⟩
  · exact Or.inr ⟨h1.trans h2'.symm, h2.trans h1'.symm⟩
  · exact Or.inr ⟨h1.trans h2'.symm, h2.trans h1'.symm⟩
  · exact Or.inl ⟨h1.trans h1'.symm, h2.trans h2'.symm⟩

/-- An edge of the pair transfers along `sameEdge`. -/
theorem edgeProp_of_sameEdge {A B T : String} {r r' : RelEdge}
    (h : edgeProp A B T r) (hse : sameEdge r r') : edgeProp A B T r' := by
  obtain ⟨hT, hd⟩ := h
  obtain ⟨hT2, hdir⟩ := hse
  refine ⟨hT2.symm.trans hT, ?_⟩
  rcases hd with ⟨h1, h2⟩ | ⟨h1, h2⟩ <;> rcases hdir with ⟨hd1, hd2⟩ | ⟨hd1, hd2⟩
  · exact Or.inl ⟨hd1.symm.trans h1, hd2.symm.trans h2⟩
  · exact Or.inr ⟨hd2.symm.trans h2, hd1.symm.trans h1⟩
  · exact Or.inr ⟨hd1.symm.trans h1, hd2.symm.trans h2⟩
  · exact Or.inl ⟨hd2.symm.trans h2, hd1.symm.trans h1⟩

/-- Unfolding one dedup step. -/
theorem dedupRels_cons (r : RelEdge) (rs : List RelEdge) (seen : List String) :
    dedupRels (r :: rs) seen =
      if relKey r ∈ seen ∨ relRevKey r ∈ seen then dedupRels rs seen
      else r :: dedupRels rs (relKey r :: seen) := rfl

/-- The dedup loop, split along whether an edge of the pair `A, B` with type
`T` has already been kept (`kept` is the list of kept relationships, whose
forward keys form the `seen` set).  Before any such edge is kept, the output
retains exactly the first matching occurrence; afterwards, every further
occurrence (in either direction) is dropped. -/
theorem dedupRels_filter_split (A B T : String) :
    ∀ (rels kept : List RelEdge),
      (∀ r ∈ rels, relClean r) → (∀ r ∈ kept, relClean r) →
      ((∀ r' ∈ kept, ¬ edgeProp A B T r') →
        (dedupRels rels (kept.map relKey)).filter (isPairEdge A B T) =
          (rels.filter (isPairEdge A B T)).take 1) ∧
      ((∃ r' ∈ kept, edgeProp A B T r') →
        (dedupRels rels (kept.map relKey)).filter (isPairEdge A B T) = []) := by
  intro rels
  induction rels with
  | nil =>
    intro kept _ _
    exact ⟨fun _ => by simp [dedupRels], fun _ => by simp [dedupRels]⟩
  | cons r rs ih =>
    intro kept hclean hkclean
    have hrc : relClean r := hclean r (List.mem_cons_self ..)
    have hrsc : ∀ x ∈ rs, relClean x := fun x hx => hclean x (List.mem_cons_of_mem _ hx)
    by_cases hcond : relKey r ∈ kept.map relKey ∨ relRevKey r ∈ kept.map relKey
    · have hsame : ∃ r' ∈ kept, sameEdge r r' := by
        rcases hcond with h | h
        · rcases List.mem_map.mp h with ⟨r', hr', hkey⟩
          exact ⟨r', hr',
            (key_match_iff_sameEdge r r' hrc (hkclean r' hr')).mp (Or.inl hkey.symm)⟩
        · rcases List.mem_map.mp h with ⟨r', hr', hkey⟩
          exact ⟨r', hr',
            (key_match_iff_sameEdge r r' hrc (hkclean r' hr')).mp (Or.inr hkey.symm)⟩
      have hded : dedupRels (r :: rs) (kept.map relKey) = dedupRels rs (kept.map relKey) := by
        rw [dedupRels_cons, if_pos hcond]
      constructor
      · intro hfree
        have hpr : ¬ edgeProp A B T r := by
          intro hp
          obtain ⟨r', hr', hse⟩ := hsame
          exact hfree r' hr' (edgeProp_of_sameEdge hp hse)
        have hprb : isPairEdge A B T r = false := by
          rw [isPairEdge_eq_decide]
          exact decide_eq_false hpr
        rw [hded, List.filter_cons, hprb]
        simp only [Bool.false_eq_true, if_false]
        exact (ih kept hrsc hkclean).1 hfree
      · intro hex
        rw [hded]
        exact (ih kept hrsc hkclean).2 hex
    · have hded : dedupRels (r :: rs) (kept.map relKey) =
          r :: dedupRels rs (relKey r :: kept.map relKey) := by
        rw [dedupRels_cons, if_neg hcond]
      have hkclean' : ∀ x ∈ r :: kept, relClean x := by
        intro x hx
        rcases List.mem_cons.mp hx with hxe | hx'
        · rw [hxe]; exact hrc
        · exact hkclean x hx'
      constructor
      · intro hfree
        by_cases hpr : edgeProp A B T r
        · have hprb : isPairEdge A B T r = true := by
            rw [isPairEdge_eq_decide]
            exact decide_eq_true hpr
          have hrest := (ih (r :: kept) hrsc hkclean').2 ⟨r, List.mem_cons_self .., hpr⟩
          rw [List.map_cons] at hrest
          rw [hded, List.filter_cons, hprb, if_pos rfl, hrest,
            List.filter_cons, hprb, if_pos rfl]
          simp
        · have hprb : isPairEdge A B T r = false := by
            rw [isPairEdge_eq_decide]
            exact decide_eq_false hpr
          have hfree' : ∀ x ∈ r :: kept, ¬ edgeProp A B T x := by
            intro x hx
            rcases List.mem_cons.mp hx with hxe | hx'
            · rw [hxe]; exact hpr
            · exact hfree x hx'
          rw [hded, List.filter_cons, hprb]
          simp only [Bool.false_eq_true, if_false]
          rw [List.filter_cons, hprb]
          simp only [Bool.false_eq_true, if_false]
          have hrest := (ih (r :: kept) hrsc hkclean').1 hfree'
          rw [List.map_cons] at hrest
          exact hrest
      · intro hex
        obtain ⟨r0, hr0, hp0⟩ := hex
        have hpr : ¬ edgeProp A B T r := by
          intro hp
          apply hcond
          rcases (key_match_iff_sameEdge r r0 hrc (hkclean r0 hr0)).mpr
              (sameEdge_of_edges hp hp0) with hk | hk
          · exact Or.inl (List.mem_map.mpr ⟨r0, hr0, hk.symm⟩)
          · exact Or.inr (List.mem_map.mpr ⟨r0, hr0, hk.symm⟩)
        have hprb : isPairEdge A B T r = false := by
          rw [isPairEdge_eq_decide]
          exact decide_eq_false hpr
        rw [hded, List.filter_cons, hprb]
        simp only [Bool.false_eq_true, if_false]
        have hrest := (ih (r :: kept) hrsc hkclean').2 ⟨r0, List.mem_cons_of_mem _ hr0, hp0⟩
        rw [List.map_cons] at hrest
        exact hrest

/-- C3 (amended): provided no entity name or relation type contains the key
separator `|` (the delimiter-collision counterexample `c3_counterexample` is
what forces this proviso), a relationship list containing both `(A, T, B)`
and `(B, T, A)` for `A ≠ B` — in any order, with any other relationships
interleaved — deduplicates to exactly one edge for that unordered pair and
type, namely the first matching occurrence in processing order. -/
theorem c3_dedup_pair_symmetry (rels : List RelEdge) (A B T : String)
    (hclean : ∀ r ∈ rels, relClean r) (hne : A ≠ B)
    (hAB : ∃ r ∈ rels, r.source_entity = A ∧ r.target_entity = B ∧ r.relation_type = T)
    (hBA : ∃ r ∈ rels, r.source_entity = B ∧ r.target_entity = A ∧ r.relation_type = T) :
    (pyDedupRelationships rels).filter (isPairEdge A B T) =
      (rels.filter (isPairEdge A B T)).take 1 ∧
    ((pyDedupRelationships rels).filter (isPairEdge A B T)).length = 1 := by
  have hmain := (dedupRels_filter_split A B T rels [] hclean (by simp)).1 (by simp)
  have hpy : pyDedupRelationships rels = dedupRels rels (List.map relKey []) := rfl
  rw [hpy]
  refine ⟨hmain, ?_⟩
  rw [hmain]
  obtain ⟨r, hr, h1, h2, h3⟩ := hAB
  have hpr : edgeProp A B T r := ⟨h3, Or.inl ⟨h1, h2⟩⟩
  have hmem : r ∈ rels.filter (isPairEdge A B T) :=
    List.mem_filter.mpr ⟨hr, by rw [isPairEdge_eq_decide]; exact decide_eq_true hpr⟩
  rcases hnil : rels.filter (isPairEdge A B T) with _ | ⟨x, xs⟩
  · rw [hnil] at hmem
    exact absurd hmem (List.not_mem_nil r)
  · simp

/-- Witness for `c3_dedup_pair_symmetry`: both directions of the FOUNDED
edge between "Alice" and "Acme", with a CO_MENTIONED edge interleaved; the
kept edge is the first occurrence, `Alice → Acme`. -/
theorem c3_dedup_pair_symmetry_witness :
    (∀ r ∈ [({ source_entity := "Alice", target_entity := "Acme",
               relation_type := "FOUNDED", context := "c", chunkId := "chunk_0" } : RelEdge),
             { source_entity := "Alice", target_entity := "Acme",
               relation_type := "CO_MENTIONED", context := "c", chunkId := "chunk_0" },
             { source_entity := "Acme", target_entity := "Alice",
               relation_type := "FOUNDED", context := "c", chunkId := "chunk_0" }], relClean r) ∧
    ("Alice" : String) ≠ "Acme" ∧
    ((pyDedupRelationships
        [{ source_entity := "Alice", target_entity := "Acme",
           relation_type := "FOUNDED", context := "c", chunkId := "chunk_0" },
         { source_entity := "Alice", target_entity := "Acme",
           relation_type := "CO_MENTIONED", context := "c", chunkId := "chunk_0" },
         { source_entity := "Acme", target_entity := "Alice",
           relation_type := "FOUNDED", context := "c", chunkId := "chunk_0" }]).filter
        (isPairEdge "Alice" "Acme" "FOUNDED") =
      (([{ source_entity := "Alice", target_entity := "Acme",
           relation_type := "FOUNDED", context := "c", chunkId := "chunk_0" },
         { source_entity := "Alice", target_entity := "Acme",
           relation_type := "CO_MENTIONED", context := "c", chunkId := "chunk_0" },
         { source_entity := "Acme", target_entity := "Alice",
           relation_type := "FOUNDED", context := "c", chunkId := "chunk_0" }] : List RelEdge).filter
          (isPairEdge "Alice" "Acme" "FOUNDED")).take 1 ∧
     ((pyDedupRelationships
        [{ source_entity := "Alice", target_entity := "Acme",
           relation_type := "FOUNDED", context := "c", chunkId := "chunk_0" },
         { source_entity := "Alice", target_entity := "Acme",
           relation_type := "CO_MENTIONED", context := "c", chunkId := "chunk_0" },
         { source_entity := "Acme", target_entity := "Alice",
           relation_type := "FOUNDED", context := "c", chunkId := "chunk_0" }]).filter
        (isPairEdge "Alice" "Acme" "FOUNDED")).length = 1) :=
  ⟨by decide, by decide,
    c3_dedup_pair_symmetry
      [{ source_entity := "Alice", target_entity := "Acme",
         relation_type := "FOUNDED", context := "c", chunkId := "chunk_0" },
       { source_entity := "Alice", target_entity := "Acme",
         relation_type := "CO_MENTIONED", context := "c", chunkId := "chunk_0" },
       { source_entity := "Acme", target_entity := "Alice",
         relation_type := "FOUNDED", context := "c", chunkId := "chunk_0" }]
      "Alice" "Acme" "FOUNDED" (by decide) (by decide)
      (by decide) (by decide)⟩
